import Mathlib

/-!
Verification development for the `deldown-Shredder` file-destruction engine
(`ShredderEngine` in `src/deldown-Shredder.py`).

The engine is embedded shallowly:

* `PATTERNS_get` embeds the `PATTERNS` dictionary lookup `PATTERNS.get(method, 3)`.
* `generate_pattern` embeds `ShredderEngine.generate_pattern`; the general-purpose
  PRNG (`random.randint(0, 255)`) is abstracted as a stream `r : Nat → Fin 256`
  of byte draws.
* `chunkList` records the `(offset, length)` pairs produced by the inner
  `while bytes_written < file_size` chunk loop of `shred_file`.
* `passLoop`, `runPasses`, `runRenames` and `shred_file` embed the body of
  `ShredderEngine.shred_file` as an event-trace semantics: the filesystem and
  the progress callback are replaced by a trace of `Event`s, and each fallible
  I/O operation (write+flush+fsync, the progress callback raising, rename,
  remove) can be made to raise via a Boolean fault oracle in `Config`; a raised
  exception aborts execution exactly as the single `try`/`except` of the source
  does, producing the result `false`.

The Python loops `while bytes_written < file_size` do not terminate when
`chunk_size ≤ 0` (the engine is only ever called with the positive default
`1024 * 1024`); the embedded loops carry the extra guard `0 < chunk_size` so
that they are total, and every theorem about a run assumes `0 < chunk_size`.
-/

namespace Shredder

/-- Embeds `ShredderEngine.PATTERNS.get(method, 3)`: the method table
`{"quick": 1, "secure": 3, "dod": 7, "gutmann": 35}` with default `3`. -/
def PATTERNS_get (method : String) : Nat :=
  if method = "quick" then 1
  else if method = "secure" then 3
  else if method = "dod" then 7
  else if method = "gutmann" then 35
  else 3

/-- Embeds `ShredderEngine.generate_pattern(size, pass_num)`.  Bytes are
modelled as natural numbers below 256; the pseudo-random source
`random.randint(0, 255)` is the abstract stream `r`. -/
def generate_pattern (size pass_num : Nat) (r : Nat → Fin 256) : List Nat :=
  if pass_num % 3 = 0 then List.replicate size 0x00
  else if pass_num % 3 = 1 then List.replicate size 0xFF
  else (List.range size).map (fun i => (r i : Nat))

/-- A filesystem path, abstracted as the pair produced by
`os.path.dirname` / `os.path.basename`; `os.path.join(directory, name)` is
`⟨directory, name⟩`. -/
structure FPath where
  dir : String
  base : String
deriving DecidableEq, Repr

/-- Observable effects of one `shred_file` run: a chunk write (together with
its `flush` and `os.fsync`), an invocation of `progress_callback`, an
`os.rename`, and an `os.remove`. -/
inductive Event where
  | write (pass_num offset len : Nat)
  | progress (pct : ℚ) (label : String)
  | rename (src dst : FPath)
  | remove (p : FPath)
deriving DecidableEq, Repr

def Event.isRename : Event → Bool
  | .rename _ _ => true
  | _ => false

def Event.isRemove : Event → Bool
  | .remove _ => true
  | _ => false

/-- The pass number of a chunk-write event, if the event is one. -/
def Event.passOf : Event → Option Nat
  | .write pass_num _ _ => some pass_num
  | _ => none

/-- The length of a chunk-write event, if the event is one. -/
def Event.lenOf : Event → Option Nat
  | .write _ _ len => some len
  | _ => none

/-- The label of a progress event, if the event is one. -/
def Event.labelOf : Event → Option String
  | .progress _ label => some label
  | _ => none

/-- One invocation of `ShredderEngine.shred_file`, together with the state of
the world it runs against: whether `os.path.isfile(filepath)` holds, the size
`os.path.getsize` returns, the stream of hex digits `random.choices` draws for
the rename chain, and fault oracles saying which I/O operations raise.
`sinkFails pass_num bw` (resp. `finalSinkFails`) says that the caller-supplied
`progress_callback` raises when invoked after `bw` bytes of pass `pass_num`
(resp. at the final `progress_callback(100, "Fertig!")`). -/
structure Config where
  filepath : FPath
  isRegularFile : Bool
  file_size : Nat
  method : String
  chunk_size : Nat
  hasCallback : Bool
  hexStream : Nat → Fin 16
  writeFails : Nat → Nat → Bool
  sinkFails : Nat → Nat → Bool
  renameFails : Nat → Bool
  removeFails : Bool
  finalSinkFails : Bool

/-- Embeds the progress expression
`((pass_num * file_size + bytes_written) / (passes * file_size)) * 100`,
computed in exact rational arithmetic. -/
def progressPct (passes file_size pass_num bytes_written : Nat) : ℚ :=
  ((pass_num * file_size + bytes_written : Nat) : ℚ) /
    ((passes * file_size : Nat) : ℚ) * 100

/-- The overall progress value of the global byte index `k` out of
`passes * file_size`; `progressPct passes S p b = pval passes S (p * S + b)`. -/
def pval (passes file_size k : Nat) : ℚ :=
  ((k : Nat) : ℚ) / ((passes * file_size : Nat) : ℚ) * 100

/-- Embeds the status string `f"Durchgang {pass_num + 1}/{passes}"`. -/
def passLabel (pass_num passes : Nat) : String :=
  "Durchgang " ++ toString (pass_num + 1) ++ "/" ++ toString passes

/-- The `(bytes_written, current_chunk)` pairs produced by the loop
`while bytes_written < file_size` of `shred_file`, starting from
`bytes_written`; `current_chunk = min(chunk_size, remaining)`. -/
def chunkList (file_size chunk_size bytes_written : Nat) : List (Nat × Nat) :=
  if h : bytes_written < file_size ∧ 0 < chunk_size then
    let remaining := file_size - bytes_written
    let current_chunk := min chunk_size remaining
    (bytes_written, current_chunk) ::
      chunkList file_size chunk_size (bytes_written + current_chunk)
  else []
termination_by file_size - bytes_written
decreasing_by
  simp_wf
  omega

/-- Embeds one pass of `shred_file` (the body under `with open(...)`),
starting with `bytes_written` bytes already written.  Returns the trace of
events together with `false` if some operation raised (aborting the run) and
`true` if the loop ran to completion.  A raising `progress_callback` is still
invoked with its arguments (hence the `progress` event) before aborting. -/
def passLoop (cfg : Config) (passes pass_num bytes_written : Nat) :
    List Event × Bool :=
  if h : bytes_written < cfg.file_size ∧ 0 < cfg.chunk_size then
    let remaining := cfg.file_size - bytes_written
    let current_chunk := min cfg.chunk_size remaining
    if cfg.writeFails pass_num bytes_written then ([], false)
    else
      let ev := Event.write pass_num bytes_written current_chunk
      let bw := bytes_written + current_chunk
      if cfg.hasCallback then
        let pev := Event.progress (progressPct passes cfg.file_size pass_num bw)
          (passLabel pass_num passes)
        if cfg.sinkFails pass_num bw then ([ev, pev], false)
        else
          let r := passLoop cfg passes pass_num bw
          (ev :: pev :: r.1, r.2)
      else
        let r := passLoop cfg passes pass_num bw
        (ev :: r.1, r.2)
  else ([], true)
termination_by cfg.file_size - bytes_written
decreasing_by
  all_goals simp_wf
  all_goals omega

/-- Embeds `for pass_num in range(passes)` of `shred_file`: run the listed
passes in order, stopping at the first failing one. -/
def runPasses (cfg : Config) (passes : Nat) : List Nat → List Event × Bool
  | [] => ([], true)
  | p :: ps =>
    let r := passLoop cfg passes p 0
    if r.2 then
      let rest := runPasses cfg passes ps
      (r.1 ++ rest.1, rest.2)
    else (r.1, false)

/-- The sixteen characters of the string `'0123456789abcdef'` that
`random.choices` draws the obfuscation names from. -/
def hexDigits : List Char := "0123456789abcdef".toList

/-- The character at position `d` of `'0123456789abcdef'`. -/
def hexChar (d : Fin 16) : Char :=
  hexDigits.get ⟨d.val, d.isLt⟩

/-- Embeds `''.join(random.choices('0123456789abcdef', k=32))` for the `i`-th
rename step: the 32 independent draws are positions `32 * i + j` of the
abstract digit stream. -/
def randomName (hexStream : Nat → Fin 16) (i : Nat) : String :=
  String.mk ((List.range 32).map (fun j => hexChar (hexStream (32 * i + j))))

/-- Embeds the rename loop `for i in range(3)` of `shred_file`: each step
draws a fresh name, renames `current_path` to it inside the directory of the
original path, and a raising `os.rename` aborts.  Returns the trace, the
success flag, and the final `current_path`. -/
def runRenames (cfg : Config) : List Nat → FPath → List Event × Bool × FPath
  | [], current_path => ([], true, current_path)
  | i :: rest, current_path =>
    let new_path : FPath := ⟨cfg.filepath.dir, randomName cfg.hexStream i⟩
    if cfg.renameFails i then ([], false, current_path)
    else
      let r := runRenames cfg rest new_path
      (Event.rename current_path new_path :: r.1, r.2.1, r.2.2)

/-- Embeds `ShredderEngine.shred_file`: validate, overwrite `passes` times,
rename three times, remove, emit the final `progress_callback(100, "Fertig!")`,
and collapse any raised exception into the result `false` (the single
`try`/`except Exception` of the source). -/
def shred_file (cfg : Config) : List Event × Bool :=
  if cfg.isRegularFile = false then ([], false)
  else
    let passes := PATTERNS_get cfg.method
    let r1 := runPasses cfg passes (List.range passes)
    if r1.2 = false then (r1.1, false)
    else
      let r2 := runRenames cfg [0, 1, 2] cfg.filepath
      if r2.2.1 = false then (r1.1 ++ r2.1, false)
      else if cfg.removeFails then (r1.1 ++ r2.1, false)
      else
        let tr := r1.1 ++ r2.1 ++ [Event.remove r2.2.2]
        if cfg.hasCallback then
          if cfg.finalSinkFails then (tr, false)
          else (tr ++ [Event.progress 100 "Fertig!"], true)
        else (tr, true)

/-- The sequence of percentage values passed to the progress sink during a
run, in order. -/
def progressVals (tr : List Event) : List ℚ :=
  tr.filterMap (fun e => match e with
    | .progress q _ => some q
    | _ => none)

/-- The event trace of one complete, fault-free pass `pass_num` out of
`passes`: per chunk, one write(+flush+fsync) followed — when a callback was
supplied — by exactly one progress invocation. -/
def idealPassTrace (cfg : Config) (passes pass_num : Nat) : List Event :=
  (chunkList cfg.file_size cfg.chunk_size 0).flatMap (fun oc =>
    Event.write pass_num oc.1 oc.2 ::
      (if cfg.hasCallback then
        [Event.progress
          (progressPct passes cfg.file_size pass_num (oc.1 + oc.2))
          (passLabel pass_num passes)]
      else []))

/-- A fault-free run against an existing 5-byte regular file, shredded with
method `quick` in 2-byte chunks (2 does not divide 5), with a progress
callback supplied. -/
def cfgOk : Config where
  filepath := ⟨"/tmp", "target.txt"⟩
  isRegularFile := true
  file_size := 5
  method := "quick"
  chunk_size := 2
  hasCallback := true
  hexStream := fun _ => 0
  writeFails := fun _ _ => false
  sinkFails := fun _ _ => false
  renameFails := fun _ => false
  removeFails := false
  finalSinkFails := false

/-- A fault-free run with an unrecognized method string. -/
def cfgFallback : Config :=
  { cfgOk with method := "xyz", file_size := 1, chunk_size := 1 }

/-- A `dod` run on a 1-byte file whose write(+flush+fsync) raises in pass 1
(0-based), i.e. on the second of the seven passes. -/
def cfgWriteFail : Config :=
  { cfgOk with method := "dod", file_size := 1, chunk_size := 1,
               writeFails := fun p _ => p == 1 }

/-- A `secure` run on a 1-byte file whose write raises in pass 1, after pass 0
has already reported progress. -/
def cfgSecureFail : Config :=
  { cfgOk with method := "secure", file_size := 1, chunk_size := 1,
               writeFails := fun p _ => p == 1 }

/-- A fault-free `quick` run on a 1-byte file, used to inspect the label text
passed to the progress sink. -/
def cfgLabel : Config :=
  { cfgOk with file_size := 1, chunk_size := 1 }

/-- A fault-free run on a file whose name is exactly the 32-character
lowercase hexadecimal string the all-zero digit stream draws, so that the
first obfuscation rename targets the file's own original name. -/
def cfgSelfName : Config :=
  { cfgOk with filepath := ⟨"/tmp", String.mk (List.replicate 32 '0')⟩,
               file_size := 0, hasCallback := false }

/-- A fault-free `secure` run on a zero-byte file, with a progress callback
supplied. -/
def cfgEmpty : Config :=
  { cfgOk with method := "secure", file_size := 0 }

/-- A run against a path that is not an existing regular file. -/
def cfgNotFile : Config :=
  { cfgOk with isRegularFile := false }

/-- A run whose caller-supplied progress callback raises at every in-pass
invocation. -/
def cfgSinkRaises : Config :=
  { cfgOk with file_size := 1, chunk_size := 1, sinkFails := fun _ _ => true }

/-! Branch lemmas: one unfolding lemma per control-flow branch of the
embedded loops. -/

theorem chunkList_stop (file_size chunk_size bytes_written : Nat)
    (h : ¬ (bytes_written < file_size ∧ 0 < chunk_size)) :
    chunkList file_size chunk_size bytes_written = [] := by
  rw [chunkList]
  simp [h]

theorem chunkList_step (file_size chunk_size bytes_written : Nat)
    (h1 : bytes_written < file_size) (h2 : 0 < chunk_size) :
    chunkList file_size chunk_size bytes_written =
      (bytes_written, min chunk_size (file_size - bytes_written)) ::
        chunkList file_size chunk_size
          (bytes_written + min chunk_size (file_size - bytes_written)) := by
  rw [chunkList]
  simp [h1, h2]

theorem passLoop_stop (cfg : Config) (passes pass_num bytes_written : Nat)
    (h : ¬ (bytes_written < cfg.file_size ∧ 0 < cfg.chunk_size)) :
    passLoop cfg passes pass_num bytes_written = ([], true) := by
  rw [passLoop]
  simp [h]

theorem passLoop_wfail (cfg : Config) (passes pass_num bytes_written : Nat)
    (h1 : bytes_written < cfg.file_size) (h2 : 0 < cfg.chunk_size)
    (hw : cfg.writeFails pass_num bytes_written = true) :
    passLoop cfg passes pass_num bytes_written = ([], false) := by
  rw [passLoop]
  simp [h1, h2, hw]

theorem passLoop_sfail (cfg : Config) (passes pass_num bytes_written : Nat)
    (h1 : bytes_written < cfg.file_size) (h2 : 0 < cfg.chunk_size)
    (hw : cfg.writeFails pass_num bytes_written = false)
    (hcb : cfg.hasCallback = true)
    (hs : cfg.sinkFails pass_num
      (bytes_written + min cfg.chunk_size (cfg.file_size - bytes_written)) = true) :
    passLoop cfg passes pass_num bytes_written =
      ([Event.write pass_num bytes_written
          (min cfg.chunk_size (cfg.file_size - bytes_written)),
        Event.progress
          (progressPct passes cfg.file_size pass_num
            (bytes_written + min cfg.chunk_size (cfg.file_size - bytes_written)))
          (passLabel pass_num passes)], false) := by
  rw [passLoop]
  simp [h1, h2, hw, hcb, hs]

theorem passLoop_cb (cfg : Config) (passes pass_num bytes_written : Nat)
    (h1 : bytes_written < cfg.file_size) (h2 : 0 < cfg.chunk_size)
    (hw : cfg.writeFails pass_num bytes_written = false)
    (hcb : cfg.hasCallback = true)
    (hs : cfg.sinkFails pass_num
      (bytes_written + min cfg.chunk_size (cfg.file_size - bytes_written)) = false) :
    passLoop cfg passes pass_num bytes_written =
      (Event.write pass_num bytes_written
          (min cfg.chunk_size (cfg.file_size - bytes_written)) ::
        Event.progress
          (progressPct passes cfg.file_size pass_num
            (bytes_written + min cfg.chunk_size (cfg.file_size - bytes_written)))
          (passLabel pass_num passes) ::
        (passLoop cfg passes pass_num
          (bytes_written + min cfg.chunk_size (cfg.file_size - bytes_written))).1,
       (passLoop cfg passes pass_num
          (bytes_written + min cfg.chunk_size (cfg.file_size - bytes_written))).2) := by
  conv_lhs => rw [passLoop]
  simp [h1, h2, hw, hcb, hs]

theorem passLoop_nocb (cfg : Config) (passes pass_num bytes_written : Nat)
    (h1 : bytes_written < cfg.file_size) (h2 : 0 < cfg.chunk_size)
    (hw : cfg.writeFails pass_num bytes_written = false)
    (hcb : cfg.hasCallback = false) :
    passLoop cfg passes pass_num bytes_written =
      (Event.write pass_num bytes_written
          (min cfg.chunk_size (cfg.file_size - bytes_written)) ::
        (passLoop cfg passes pass_num
          (bytes_written + min cfg.chunk_size (cfg.file_size - bytes_written))).1,
       (passLoop cfg passes pass_num
          (bytes_written + min cfg.chunk_size (cfg.file_size - bytes_written))).2) := by
  conv_lhs => rw [passLoop]
  simp [h1, h2, hw, hcb]

theorem runPasses_nil (cfg : Config) (passes : Nat) :
    runPasses cfg passes [] = ([], true) := rfl

theorem runPasses_cons_ok (cfg : Config) (passes p : Nat) (ps : List Nat)
    (h : (passLoop cfg passes p 0).2 = true) :
    runPasses cfg passes (p :: ps) =
      ((passLoop cfg passes p 0).1 ++ (runPasses cfg passes ps).1,
       (runPasses cfg passes ps).2) := by
  simp [runPasses, h]

theorem runPasses_cons_fail (cfg : Config) (passes p : Nat) (ps : List Nat)
    (h : (passLoop cfg passes p 0).2 = false) :
    runPasses cfg passes (p :: ps) = ((passLoop cfg passes p 0).1, false) := by
  simp [runPasses, h]

theorem runRenames_nil (cfg : Config) (current_path : FPath) :
    runRenames cfg [] current_path = ([], true, current_path) := rfl

theorem runRenames_cons_fail (cfg : Config) (i : Nat) (rest : List Nat)
    (current_path : FPath) (h : cfg.renameFails i = true) :
    runRenames cfg (i :: rest) current_path = ([], false, current_path) := by
  simp [runRenames, h]

theorem runRenames_cons_ok (cfg : Config) (i : Nat) (rest : List Nat)
    (current_path : FPath) (h : cfg.renameFails i = false) :
    runRenames cfg (i :: rest) current_path =
      (Event.rename current_path ⟨cfg.filepath.dir, randomName cfg.hexStream i⟩ ::
        (runRenames cfg rest ⟨cfg.filepath.dir, randomName cfg.hexStream i⟩).1,
       (runRenames cfg rest ⟨cfg.filepath.dir, randomName cfg.hexStream i⟩).2.1,
       (runRenames cfg rest ⟨cfg.filepath.dir, randomName cfg.hexStream i⟩).2.2) := by
  simp [runRenames, h]

theorem PATTERNS_get_pos (method : String) : 0 < PATTERNS_get method := by
  unfold PATTERNS_get
  repeat' split
  all_goals norm_num

/-! Structural facts about the chunk loop, established by induction on the
fuel bound `file_size - bytes_written` (each iteration writes at least one
byte when `0 < chunk_size`). -/

theorem chunkList_sum_aux (chunk_size : Nat) (hC : 0 < chunk_size) :
    ∀ (m file_size bytes_written : Nat), file_size - bytes_written ≤ m →
      ((chunkList file_size chunk_size bytes_written).map Prod.snd).sum =
        file_size - bytes_written := by
  intro m
  induction m with
  | zero =>
      intro S b hm
      rw [chunkList_stop S chunk_size b (by omega)]
      simp
      omega
  | succ m ih =>
      intro S b hm
      by_cases hlt : b < S
      · rw [chunkList_step S chunk_size b hlt hC]
        simp only [List.map_cons, List.sum_cons]
        rw [ih S (b + min chunk_size (S - b)) (by omega)]
        omega
      · rw [chunkList_stop S chunk_size b (by omega)]
        simp
        omega

theorem chunkList_mem_aux (chunk_size : Nat) (hC : 0 < chunk_size) :
    ∀ (m file_size bytes_written : Nat), file_size - bytes_written ≤ m →
      ∀ oc ∈ chunkList file_size chunk_size bytes_written,
        oc.2 = min chunk_size (file_size - oc.1) ∧ 0 < oc.2 ∧
          bytes_written ≤ oc.1 ∧ oc.1 + oc.2 ≤ file_size := by
  intro m
  induction m with
  | zero =>
      intro S b hm oc hoc
      rw [chunkList_stop S chunk_size b (by omega)] at hoc
      simp at hoc
  | succ m ih =>
      intro S b hm oc hoc
      by_cases hlt : b < S
      · rw [chunkList_step S chunk_size b hlt hC] at hoc
        rcases List.mem_cons.mp hoc with h | h
        · subst h
          refine ⟨rfl, by omega, by omega, by omega⟩
        · have := ih S (b + min chunk_size (S - b)) (by omega) oc h
          exact ⟨this.1, this.2.1, by omega, this.2.2.2⟩
      · rw [chunkList_stop S chunk_size b (by omega)] at hoc
        simp at hoc

/-- Fault-free execution of one pass equals the ideal chunked trace. -/
theorem passLoop_ideal_aux (cfg : Config) (passes pass_num : Nat)
    (hwf : ∀ p o, cfg.writeFails p o = false)
    (hsf : ∀ p b, cfg.sinkFails p b = false) :
    ∀ (m bytes_written : Nat), cfg.file_size - bytes_written ≤ m →
      passLoop cfg passes pass_num bytes_written =
        ((chunkList cfg.file_size cfg.chunk_size bytes_written).flatMap (fun oc =>
          Event.write pass_num oc.1 oc.2 ::
            (if cfg.hasCallback then
              [Event.progress
                (progressPct passes cfg.file_size pass_num (oc.1 + oc.2))
                (passLabel pass_num passes)]
            else [])), true) := by
  intro m
  induction m with
  | zero =>
      intro b hm
      rw [passLoop_stop cfg passes pass_num b (by omega),
        chunkList_stop _ _ _ (by omega)]
      simp
  | succ m ih =>
      intro b hm
      by_cases hcond : b < cfg.file_size ∧ 0 < cfg.chunk_size
      · obtain ⟨hlt, hC⟩ := hcond
        rw [chunkList_step _ _ _ hlt hC]
        cases hcb : cfg.hasCallback with
        | true =>
            rw [passLoop_cb cfg passes pass_num b hlt hC (hwf _ _) hcb (hsf _ _),
              ih (b + min cfg.chunk_size (cfg.file_size - b)) (by omega)]
            simp [hcb]
        | false =>
            rw [passLoop_nocb cfg passes pass_num b hlt hC (hwf _ _) hcb,
              ih (b + min cfg.chunk_size (cfg.file_size - b)) (by omega)]
            simp [hcb]
      · rw [passLoop_stop cfg passes pass_num b hcond,
          chunkList_stop _ _ _ hcond]
        simp

/-- Fault-free execution of one pass, started at offset 0. -/
theorem passLoop_ideal (cfg : Config) (passes pass_num : Nat)
    (hwf : ∀ p o, cfg.writeFails p o = false)
    (hsf : ∀ p b, cfg.sinkFails p b = false) :
    passLoop cfg passes pass_num 0 = (idealPassTrace cfg passes pass_num, true) :=
  passLoop_ideal_aux cfg passes pass_num hwf hsf cfg.file_size 0 (by omega)

/-- Fault-free execution of a list of passes concatenates the ideal traces. -/
theorem runPasses_ideal (cfg : Config) (passes : Nat)
    (hwf : ∀ p o, cfg.writeFails p o = false)
    (hsf : ∀ p b, cfg.sinkFails p b = false) :
    ∀ ps : List Nat, runPasses cfg passes ps =
      (ps.flatMap (fun p => idealPassTrace cfg passes p), true) := by
  intro ps
  induction ps with
  | nil => rfl
  | cons p ps ih =>
      rw [runPasses_cons_ok cfg passes p ps
          (by rw [passLoop_ideal cfg passes p hwf hsf]),
        passLoop_ideal cfg passes p hwf hsf, ih]
      simp

/-! Classification of the events each loop can emit, with faults allowed. -/

theorem passLoop_events_aux (cfg : Config) (passes pass_num : Nat) :
    ∀ (m bytes_written : Nat), cfg.file_size - bytes_written ≤ m →
      ∀ e ∈ (passLoop cfg passes pass_num bytes_written).1,
        (∃ o l, e = Event.write pass_num o l) ∨
          (∃ q lab, e = Event.progress q lab) := by
  intro m
  induction m with
  | zero =>
      intro b hm e he
      rw [passLoop_stop _ _ _ _ (by omega)] at he
      simp at he
  | succ m ih =>
      intro b hm e he
      by_cases hcond : b < cfg.file_size ∧ 0 < cfg.chunk_size
      · obtain ⟨hlt, hC⟩ := hcond
        cases hw : cfg.writeFails pass_num b with
        | true =>
            rw [passLoop_wfail _ _ _ _ hlt hC hw] at he
            simp at he
        | false =>
            cases hcb : cfg.hasCallback with
            | false =>
                rw [passLoop_nocb _ _ _ _ hlt hC hw hcb] at he
                rcases List.mem_cons.mp he with h | h
                · exact Or.inl ⟨_, _, h⟩
                · exact ih (b + min cfg.chunk_size (cfg.file_size - b))
                    (by omega) e h
            | true =>
                cases hs : cfg.sinkFails pass_num
                    (b + min cfg.chunk_size (cfg.file_size - b)) with
                | true =>
                    rw [passLoop_sfail _ _ _ _ hlt hC hw hcb hs] at he
                    rcases List.mem_cons.mp he with h | h
                    · exact Or.inl ⟨_, _, h⟩
                    · rcases List.mem_cons.mp h with h2 | h2
                      · exact Or.inr ⟨_, _, h2⟩
                      · simp at h2
                | false =>
                    rw [passLoop_cb _ _ _ _ hlt hC hw hcb hs] at he
                    rcases List.mem_cons.mp he with h | h
                    · exact Or.inl ⟨_, _, h⟩
                    · rcases List.mem_cons.mp h with h2 | h2
                      · exact Or.inr ⟨_, _, h2⟩
                      · exact ih (b + min cfg.chunk_size (cfg.file_size - b))
                          (by omega) e h2
      · rw [passLoop_stop _ _ _ _ hcond] at he
        simp at he

theorem passLoop_events (cfg : Config) (passes pass_num : Nat) :
    ∀ e ∈ (passLoop cfg passes pass_num 0).1,
      (∃ o l, e = Event.write pass_num o l) ∨
        (∃ q lab, e = Event.progress q lab) :=
  passLoop_events_aux cfg passes pass_num cfg.file_size 0 (by omega)

theorem runPasses_events (cfg : Config) (passes : Nat) :
    ∀ ps : List Nat, ∀ e ∈ (runPasses cfg passes ps).1,
      ∃ p ∈ ps, e ∈ (passLoop cfg passes p 0).1 := by
  intro ps
  induction ps with
  | nil =>
      intro e he
      simp [runPasses_nil] at he
  | cons p ps ih =>
      intro e he
      cases hp : (passLoop cfg passes p 0).2 with
      | false =>
          rw [runPasses_cons_fail cfg passes p ps hp] at he
          exact ⟨p, List.mem_cons_self p ps, he⟩
      | true =>
          rw [runPasses_cons_ok cfg passes p ps hp] at he
          rcases List.mem_append.mp he with h | h
          · exact ⟨p, List.mem_cons_self p ps, h⟩
          · obtain ⟨q, hq, hq2⟩ := ih e h
            exact ⟨q, List.mem_cons_of_mem p hq, hq2⟩

theorem runPasses_fail_of_mem (cfg : Config) (passes : Nat) :
    ∀ ps : List Nat, ∀ p ∈ ps, (passLoop cfg passes p 0).2 = false →
      (runPasses cfg passes ps).2 = false := by
  intro ps
  induction ps with
  | nil =>
      intro p hp
      simp at hp
  | cons q ps ih =>
      intro p hp hfail
      cases hq : (passLoop cfg passes q 0).2 with
      | false =>
          rw [runPasses_cons_fail cfg passes q ps hq]
      | true =>
          rw [runPasses_cons_ok cfg passes q ps hq]
          rcases List.mem_cons.mp hp with h | h
          · subst h
            rw [hq] at hfail
            exact absurd hfail (by simp)
          · exact ih p h hfail

/-- When every pass before `k` succeeds and pass `k` fails, the executed
passes are exactly `ps1 ++ [k]` and the run stops with failure. -/
theorem runPasses_first_fail (cfg : Config) (passes k : Nat)
    (hfail : (passLoop cfg passes k 0).2 = false) :
    ∀ ps1 ps2 : List Nat, (∀ p ∈ ps1, (passLoop cfg passes p 0).2 = true) →
      runPasses cfg passes (ps1 ++ k :: ps2) =
        (ps1.flatMap (fun p => (passLoop cfg passes p 0).1) ++
          (passLoop cfg passes k 0).1, false) := by
  intro ps1
  induction ps1 with
  | nil =>
      intro ps2 _
      rw [List.nil_append]
      simp [runPasses_cons_fail cfg passes k ps2 hfail]
  | cons p ps1 ih =>
      intro ps2 hok
      rw [List.cons_append,
        runPasses_cons_ok cfg passes p (ps1 ++ k :: ps2)
          (hok p (List.mem_cons_self p ps1)),
        ih ps2 (fun q hq => hok q (List.mem_cons_of_mem p hq))]
      simp

theorem runRenames_events (cfg : Config) :
    ∀ (steps : List Nat) (current_path : FPath),
      ∀ e ∈ (runRenames cfg steps current_path).1, ∃ s d, e = Event.rename s d := by
  intro steps
  induction steps with
  | nil =>
      intro cur e he
      simp [runRenames_nil] at he
  | cons i rest ih =>
      intro cur e he
      cases hi : cfg.renameFails i with
      | true =>
          rw [runRenames_cons_fail cfg i rest cur hi] at he
          simp at he
      | false =>
          rw [runRenames_cons_ok cfg i rest cur hi] at he
          rcases List.mem_cons.mp he with h | h
          · exact ⟨_, _, h⟩
          · exact ih _ e h

/-! Shred-level branch lemmas. -/

theorem shred_file_notfile (cfg : Config) (hreg : cfg.isRegularFile = false) :
    shred_file cfg = ([], false) := by
  simp [shred_file, hreg]

theorem shred_file_passfail (cfg : Config) (hreg : cfg.isRegularFile = true)
    (hfail : (runPasses cfg (PATTERNS_get cfg.method)
      (List.range (PATTERNS_get cfg.method))).2 = false) :
    shred_file cfg =
      ((runPasses cfg (PATTERNS_get cfg.method)
        (List.range (PATTERNS_get cfg.method))).1, false) := by
  simp [shred_file, hreg, hfail]

/-- The three fault-free renames: from the original path through the three
freshly drawn names. -/
theorem runRenames_ideal (cfg : Config) (hrn : ∀ i, cfg.renameFails i = false) :
    runRenames cfg [0, 1, 2] cfg.filepath =
      ([Event.rename cfg.filepath ⟨cfg.filepath.dir, randomName cfg.hexStream 0⟩,
        Event.rename ⟨cfg.filepath.dir, randomName cfg.hexStream 0⟩
          ⟨cfg.filepath.dir, randomName cfg.hexStream 1⟩,
        Event.rename ⟨cfg.filepath.dir, randomName cfg.hexStream 1⟩
          ⟨cfg.filepath.dir, randomName cfg.hexStream 2⟩],
       true, ⟨cfg.filepath.dir, randomName cfg.hexStream 2⟩) := by
  rw [runRenames_cons_ok cfg 0 [1, 2] cfg.filepath (hrn 0),
    runRenames_cons_ok cfg 1 [2] _ (hrn 1),
    runRenames_cons_ok cfg 2 [] _ (hrn 2),
    runRenames_nil]

/-- A completely fault-free run produces the ideal trace and succeeds. -/
theorem shred_file_ideal (cfg : Config) (hreg : cfg.isRegularFile = true)
    (hwf : ∀ p o, cfg.writeFails p o = false)
    (hsf : ∀ p b, cfg.sinkFails p b = false)
    (hrn : ∀ i, cfg.renameFails i = false)
    (hrm : cfg.removeFails = false)
    (hfs : cfg.finalSinkFails = false) :
    shred_file cfg =
      ((List.range (PATTERNS_get cfg.method)).flatMap
          (fun p => idealPassTrace cfg (PATTERNS_get cfg.method) p) ++
        ([Event.rename cfg.filepath ⟨cfg.filepath.dir, randomName cfg.hexStream 0⟩,
          Event.rename ⟨cfg.filepath.dir, randomName cfg.hexStream 0⟩
            ⟨cfg.filepath.dir, randomName cfg.hexStream 1⟩,
          Event.rename ⟨cfg.filepath.dir, randomName cfg.hexStream 1⟩
            ⟨cfg.filepath.dir, randomName cfg.hexStream 2⟩,
          Event.remove ⟨cfg.filepath.dir, randomName cfg.hexStream 2⟩] ++
          (if cfg.hasCallback then [Event.progress 100 "Fertig!"] else [])),
       true) := by
  cases hcb : cfg.hasCallback <;>
    simp [shred_file, hreg, runPasses_ideal cfg (PATTERNS_get cfg.method) hwf hsf,
      runRenames_ideal cfg hrn, hrm, hfs, hcb, List.append_assoc]

/-! Projections of the ideal pass trace. -/

theorem idealPassTrace_lenOf (cfg : Config) (passes pass_num : Nat) :
    (idealPassTrace cfg passes pass_num).filterMap Event.lenOf =
      (chunkList cfg.file_size cfg.chunk_size 0).map Prod.snd := by
  unfold idealPassTrace
  generalize chunkList cfg.file_size cfg.chunk_size 0 = l
  induction l with
  | nil => rfl
  | cons oc l ih =>
      rw [List.flatMap_cons, List.filterMap_append, ih, List.map_cons]
      cases hcb : cfg.hasCallback <;> simp [hcb, Event.lenOf]

theorem idealPassTrace_passOf (cfg : Config) (passes pass_num : Nat) :
    (idealPassTrace cfg passes pass_num).filterMap Event.passOf =
      (chunkList cfg.file_size cfg.chunk_size 0).map (fun _ => pass_num) := by
  unfold idealPassTrace
  generalize chunkList cfg.file_size cfg.chunk_size 0 = l
  induction l with
  | nil => rfl
  | cons oc l ih =>
      rw [List.flatMap_cons, List.filterMap_append, ih, List.map_cons]
      cases hcb : cfg.hasCallback <;> simp [hcb, Event.passOf]

/-- Only the pass-loop portion of a run can contain write events, so pass
numbers can be read off the full trace. -/
theorem shred_file_passOf (cfg : Config) (hreg : cfg.isRegularFile = true) :
    (shred_file cfg).1.filterMap Event.passOf =
      (runPasses cfg (PATTERNS_get cfg.method)
        (List.range (PATTERNS_get cfg.method))).1.filterMap Event.passOf := by
  have hrnil : (runRenames cfg [0, 1, 2] cfg.filepath).1.filterMap Event.passOf = [] := by
    refine List.filterMap_eq_nil_iff.mpr ?_
    intro e he
    obtain ⟨s, d, rfl⟩ := runRenames_events cfg [0, 1, 2] cfg.filepath e he
    rfl
  by_cases hr1 : (runPasses cfg (PATTERNS_get cfg.method)
      (List.range (PATTERNS_get cfg.method))).2 = false
  · rw [shred_file_passfail cfg hreg hr1]
  · by_cases hr2 : (runRenames cfg [0, 1, 2] cfg.filepath).2.1 = false
    · simp [shred_file, hreg, hr1, hr2, List.filterMap_append, hrnil]
    · cases hrm : cfg.removeFails with
      | true => simp [shred_file, hreg, hr1, hr2, hrm, List.filterMap_append, hrnil]
      | false =>
          cases hcb : cfg.hasCallback with
          | false =>
              simp [shred_file, hreg, hr1, hr2, hrm, hcb,
                List.filterMap_append, hrnil, Event.passOf]
          | true =>
              cases hfs : cfg.finalSinkFails <;>
                simp [shred_file, hreg, hr1, hr2, hrm, hcb, hfs,
                  List.filterMap_append, hrnil, Event.passOf]

theorem flatMap_ideal_passOf (cfg : Config) (passes : Nat) :
    ∀ ps : List Nat,
      (ps.flatMap (fun p => idealPassTrace cfg passes p)).filterMap Event.passOf =
        ps.flatMap (fun p =>
          (chunkList cfg.file_size cfg.chunk_size 0).map (fun _ => p)) := by
  intro ps
  induction ps with
  | nil => rfl
  | cons p ps ih =>
      rw [List.flatMap_cons, List.filterMap_append, ih, idealPassTrace_passOf,
        List.flatMap_cons]

/-! Claim theorems. -/

/-- C1: for every file size and every positive chunk size, one overwrite pass
writes exactly `file_size` bytes in total; the chunk loop writes
`min(chunk_size, remaining)` bytes per chunk starting from offset 0 and stops
exactly when `bytes_written = file_size`, losing and duplicating nothing
whether or not the chunk size divides the file size. -/
theorem single_pass_writes_exactly_file_size (cfg : Config)
    (hC : 0 < cfg.chunk_size)
    (hwf : ∀ p o, cfg.writeFails p o = false)
    (hsf : ∀ p b, cfg.sinkFails p b = false)
    (passes pass_num : Nat) :
    ((passLoop cfg passes pass_num 0).1.filterMap Event.lenOf).sum = cfg.file_size ∧
    ((chunkList cfg.file_size cfg.chunk_size 0).map Prod.snd).sum = cfg.file_size ∧
    (∀ oc ∈ chunkList cfg.file_size cfg.chunk_size 0,
      oc.2 = min cfg.chunk_size (cfg.file_size - oc.1) ∧ 0 < oc.2 ∧
        oc.1 + oc.2 ≤ cfg.file_size) := by
  have hsum := chunkList_sum_aux cfg.chunk_size hC cfg.file_size cfg.file_size 0
    (by omega)
  refine ⟨?_, by simpa using hsum, ?_⟩
  · rw [passLoop_ideal cfg passes pass_num hwf hsf]
    show ((idealPassTrace cfg passes pass_num).filterMap Event.lenOf).sum = _
    rw [idealPassTrace_lenOf]
    simpa using hsum
  · intro oc hoc
    have h := chunkList_mem_aux cfg.chunk_size hC cfg.file_size cfg.file_size 0
      (by omega) oc hoc
    exact ⟨h.1, h.2.1, h.2.2.2⟩

/-- C1 witness: a 5-byte file overwritten in 2-byte chunks (2 does not divide
5) writes exactly 5 bytes in one pass. -/
theorem single_pass_writes_exactly_file_size_witness :
    0 < cfgOk.chunk_size ∧
    ((passLoop cfgOk 1 0 0).1.filterMap Event.lenOf).sum = 5 ∧
    ((chunkList cfgOk.file_size cfgOk.chunk_size 0).map Prod.snd).sum = 5 := by
  have h := single_pass_writes_exactly_file_size cfgOk (by decide)
    (fun p o => rfl) (fun p b => rfl) 1 0
  exact ⟨by decide, h.1, h.2.1⟩

/-- C2: `generate_pattern size pass_num` always returns a buffer of length
`size`; all `0x00` bytes when `pass_num % 3 = 0`, all `0xFF` when
`pass_num % 3 = 1`, and the successive draws of the pseudo-random source when
`pass_num % 3 = 2`; size 0 yields the empty buffer, and no error is possible
(the function is total by construction). -/
theorem generate_pattern_spec (size pass_num : Nat) (r : Nat → Fin 256) :
    (generate_pattern size pass_num r).length = size ∧
    (pass_num % 3 = 0 → generate_pattern size pass_num r = List.replicate size 0x00) ∧
    (pass_num % 3 = 1 → generate_pattern size pass_num r = List.replicate size 0xFF) ∧
    (pass_num % 3 = 2 →
      generate_pattern size pass_num r = (List.range size).map (fun i => (r i : Nat))) ∧
    (∀ b ∈ generate_pattern size pass_num r, b < 256) ∧
    (size = 0 → generate_pattern size pass_num r = []) := by
  refine ⟨?_, ?_, ?_, ?_, ?_, ?_⟩
  · unfold generate_pattern
    split
    · simp
    · split <;> simp
  · intro h
    simp [generate_pattern, h]
  · intro h
    simp [generate_pattern, h]
  · intro h
    simp [generate_pattern, h]
  · intro b hb
    unfold generate_pattern at hb
    split at hb
    · rw [List.eq_of_mem_replicate hb]
      norm_num
    · split at hb
      · rw [List.eq_of_mem_replicate hb]
        norm_num
      · obtain ⟨i, -, rfl⟩ := List.mem_map.mp hb
        exact (r i).isLt
  · intro h
    subst h
    unfold generate_pattern
    split
    · simp
    · split <;> simp

/-- C2 witness: concrete buffers for pass numbers 3, 4 and 5 with a constant
pseudo-random stream. -/
theorem generate_pattern_spec_witness :
    (generate_pattern 4 3 (fun _ => (7 : Fin 256))).length = 4 ∧
    generate_pattern 4 3 (fun _ => (7 : Fin 256)) = [0, 0, 0, 0] ∧
    generate_pattern 4 4 (fun _ => (7 : Fin 256)) = [255, 255, 255, 255] ∧
    generate_pattern 4 5 (fun _ => (7 : Fin 256)) = [7, 7, 7, 7] := by
  have h0 := generate_pattern_spec 4 3 (fun _ => (7 : Fin 256))
  have h1 := generate_pattern_spec 4 4 (fun _ => (7 : Fin 256))
  have h2 := generate_pattern_spec 4 5 (fun _ => (7 : Fin 256))
  refine ⟨h0.1, ?_, ?_, ?_⟩
  · rw [h0.2.1 (by norm_num)]
    decide
  · rw [h1.2.2.1 (by norm_num)]
    decide
  · rw [h2.2.2.2.1 (by norm_num)]
    decide

/-- C3: the method table resolves quick to 1, secure to 3, dod to 7 and
gutmann to 35 passes; every other method string falls back to 3 passes, and a
fault-free run executes exactly that many passes (its write events cover pass
numbers `0, …, passes - 1`, once per chunk). -/
theorem method_pass_count_resolution :
    (PATTERNS_get "quick" = 1 ∧ PATTERNS_get "secure" = 3 ∧
      PATTERNS_get "dod" = 7 ∧ PATTERNS_get "gutmann" = 35) ∧
    (∀ method : String, method ≠ "quick" → method ≠ "secure" → method ≠ "dod" →
      method ≠ "gutmann" → PATTERNS_get method = 3) ∧
    (∀ cfg : Config, cfg.isRegularFile = true → 0 < cfg.chunk_size →
      (∀ p o, cfg.writeFails p o = false) → (∀ p b, cfg.sinkFails p b = false) →
      (shred_file cfg).1.filterMap Event.passOf =
        (List.range (PATTERNS_get cfg.method)).flatMap
          (fun p => (chunkList cfg.file_size cfg.chunk_size 0).map (fun _ => p))) := by
  refine ⟨⟨rfl, rfl, rfl, rfl⟩, ?_, ?_⟩
  · intro m h1 h2 h3 h4
    simp [PATTERNS_get, h1, h2, h3, h4]
  · intro cfg hreg hC hwf hsf
    rw [shred_file_passOf cfg hreg,
      runPasses_ideal cfg (PATTERNS_get cfg.method) hwf hsf]
    exact flatMap_ideal_passOf cfg (PATTERNS_get cfg.method)
      (List.range (PATTERNS_get cfg.method))

/-- C3 witness: the unrecognized method string `"xyz"` resolves to 3 passes
and a fault-free run with it executes write events for passes 0, 1 and 2. -/
theorem method_pass_count_resolution_witness :
    PATTERNS_get "xyz" = 3 ∧
    (shred_file cfgFallback).1.filterMap Event.passOf = [0, 1, 2] := by
  obtain ⟨-, htable, hrun⟩ := method_pass_count_resolution
  refine ⟨htable "xyz" (by decide) (by decide) (by decide) (by decide), ?_⟩
  rw [hrun cfgFallback rfl (by decide) (fun p o => rfl) (fun p b => rfl)]
  have hS : cfgFallback.file_size = 1 := rfl
  have hc : cfgFallback.chunk_size = 1 := rfl
  have hm : cfgFallback.method = "xyz" := rfl
  have hcl : chunkList 1 1 0 = [(0, 1)] := by
    rw [chunkList_step 1 1 0 (by norm_num) (by norm_num)]
    norm_num
    exact chunkList_stop 1 1 1 (by omega)
  rw [hS, hc, hm, hcl]
  decide

/-- C9: when the path is not an existing regular file, `shred_file` returns
failure with no side effects at all: no write, no rename, no removal, no
progress update. -/
theorem invalid_path_no_side_effects (cfg : Config)
    (hreg : cfg.isRegularFile = false) :
    (shred_file cfg).1 = [] ∧ (shred_file cfg).2 = false := by
  rw [shred_file_notfile cfg hreg]
  exact ⟨rfl, rfl⟩

/-- C9 witness: a concrete run against a missing path has an empty trace and
fails. -/
theorem invalid_path_no_side_effects_witness :
    (shred_file cfgNotFile).1 = [] ∧ (shred_file cfgNotFile).2 = false :=
  invalid_path_no_side_effects cfgNotFile rfl

/-- C4: if pass `k` of a run raises (write, flush or fsync failing) while all
earlier passes succeeded, the run returns failure immediately: no rename and
no removal is ever attempted, and no write event of any pass beyond `k`
occurs. -/
theorem pass_failure_stops_run (cfg : Config) (hreg : cfg.isRegularFile = true)
    (k : Nat) (hk : k < PATTERNS_get cfg.method)
    (hfail : (passLoop cfg (PATTERNS_get cfg.method) k 0).2 = false)
    (hprev : ∀ j, j < k → (passLoop cfg (PATTERNS_get cfg.method) j 0).2 = true) :
    (shred_file cfg).2 = false ∧
    (shred_file cfg).1.filter Event.isRename = [] ∧
    (shred_file cfg).1.filter Event.isRemove = [] ∧
    (∀ p ∈ (shred_file cfg).1.filterMap Event.passOf, p ≤ k) := by
  have hrfail : (runPasses cfg (PATTERNS_get cfg.method)
      (List.range (PATTERNS_get cfg.method))).2 = false :=
    runPasses_fail_of_mem cfg (PATTERNS_get cfg.method)
      (List.range (PATTERNS_get cfg.method)) k (List.mem_range.mpr hk) hfail
  have hshred := shred_file_passfail cfg hreg hrfail
  have hclassify : ∀ e ∈ (runPasses cfg (PATTERNS_get cfg.method)
      (List.range (PATTERNS_get cfg.method))).1,
      e.isRename = false ∧ e.isRemove = false := by
    intro e he
    obtain ⟨p, -, hep⟩ := runPasses_events cfg (PATTERNS_get cfg.method)
      (List.range (PATTERNS_get cfg.method)) e he
    rcases passLoop_events cfg (PATTERNS_get cfg.method) p e hep with
      ⟨o, l, rfl⟩ | ⟨q, lab, rfl⟩ <;> exact ⟨rfl, rfl⟩
  refine ⟨by rw [hshred], ?_, ?_, ?_⟩
  · rw [hshred]
    exact List.filter_eq_nil_iff.mpr
      (fun e he => by simp [(hclassify e he).1])
  · rw [hshred]
    exact List.filter_eq_nil_iff.mpr
      (fun e he => by simp [(hclassify e he).2])
  · intro p hp
    rw [hshred] at hp
    obtain ⟨e, he, hpe⟩ := List.mem_filterMap.mp hp
    have hdecomp : List.range (PATTERNS_get cfg.method) =
        List.range k ++ k :: (List.range (PATTERNS_get cfg.method - (k + 1))).map
          (fun x => (k + 1) + x) := by
      conv_lhs => rw [show PATTERNS_get cfg.method =
        (k + 1) + (PATTERNS_get cfg.method - (k + 1)) by omega]
      rw [List.range_add, List.range_succ, List.append_assoc, List.singleton_append]
    rw [hdecomp, runPasses_first_fail cfg (PATTERNS_get cfg.method) k hfail
      (List.range k) _ (fun q hq => hprev q (List.mem_range.mp hq))] at he
    rcases List.mem_append.mp he with h | h
    · obtain ⟨j, hj, hej⟩ := List.mem_flatMap.mp h
      rcases passLoop_events cfg (PATTERNS_get cfg.method) j e hej with
        ⟨o, l, rfl⟩ | ⟨q, lab, rfl⟩
      · have : j = p := by
          simpa [Event.passOf] using hpe
        exact le_of_lt (this ▸ List.mem_range.mp hj)
      · simp [Event.passOf] at hpe
    · rcases passLoop_events cfg (PATTERNS_get cfg.method) k e h with
        ⟨o, l, rfl⟩ | ⟨q, lab, rfl⟩
      · have : k = p := by
          simpa [Event.passOf] using hpe
        omega
      · simp [Event.passOf] at hpe

/-- C4 witness: a `dod` run on a 1-byte file whose write raises in pass 1
(after pass 0 succeeded) fails, attempts no rename and no removal, and writes
nothing beyond pass 1. -/
theorem pass_failure_stops_run_witness :
    (shred_file cfgWriteFail).2 = false ∧
    (shred_file cfgWriteFail).1.filter Event.isRename = [] ∧
    (shred_file cfgWriteFail).1.filter Event.isRemove = [] ∧
    (∀ p ∈ (shred_file cfgWriteFail).1.filterMap Event.passOf, p ≤ 1) := by
  have hfail : (passLoop cfgWriteFail (PATTERNS_get cfgWriteFail.method) 1 0).2
      = false := by
    rw [passLoop_wfail cfgWriteFail (PATTERNS_get cfgWriteFail.method) 1 0
      (by decide) (by decide) (by decide)]
  have hprev : ∀ j, j < 1 →
      (passLoop cfgWriteFail (PATTERNS_get cfgWriteFail.method) j 0).2 = true := by
    intro j hj
    have hj0 : j = 0 := by omega
    subst hj0
    rw [passLoop_cb cfgWriteFail (PATTERNS_get cfgWriteFail.method) 0 0
      (by decide) (by decide) (by decide) (by decide) (by decide),
      passLoop_stop cfgWriteFail (PATTERNS_get cfgWriteFail.method) 0
        (0 + min cfgWriteFail.chunk_size (cfgWriteFail.file_size - 0)) (by decide)]
  exact pass_failure_stops_run cfgWriteFail rfl 1 (by decide) hfail hprev

/-- Dissection of a successful run: validation passed, every pass succeeded,
and the trace ends with the three renames, the removal, and — when a callback
was supplied — the final 100% update. -/
theorem shred_file_success (cfg : Config) (hs : (shred_file cfg).2 = true) :
    cfg.isRegularFile = true ∧
    (runPasses cfg (PATTERNS_get cfg.method)
      (List.range (PATTERNS_get cfg.method))).2 = true ∧
    shred_file cfg =
      ((runPasses cfg (PATTERNS_get cfg.method)
          (List.range (PATTERNS_get cfg.method))).1 ++
        ([Event.rename cfg.filepath ⟨cfg.filepath.dir, randomName cfg.hexStream 0⟩,
          Event.rename ⟨cfg.filepath.dir, randomName cfg.hexStream 0⟩
            ⟨cfg.filepath.dir, randomName cfg.hexStream 1⟩,
          Event.rename ⟨cfg.filepath.dir, randomName cfg.hexStream 1⟩
            ⟨cfg.filepath.dir, randomName cfg.hexStream 2⟩,
          Event.remove ⟨cfg.filepath.dir, randomName cfg.hexStream 2⟩] ++
          (if cfg.hasCallback then [Event.progress 100 "Fertig!"] else [])),
       true) := by
  cases hreg : cfg.isRegularFile with
  | false => simp [shred_file_notfile cfg hreg] at hs
  | true =>
    cases hr1 : (runPasses cfg (PATTERNS_get cfg.method)
        (List.range (PATTERNS_get cfg.method))).2 with
    | false => simp [shred_file_passfail cfg hreg hr1] at hs
    | true =>
      cases h0 : cfg.renameFails 0 with
      | true =>
          simp [shred_file, hreg, hr1,
            runRenames_cons_fail cfg 0 [1, 2] cfg.filepath h0] at hs
      | false =>
        cases h1 : cfg.renameFails 1 with
        | true =>
            simp [shred_file, hreg, hr1,
              runRenames_cons_ok cfg 0 [1, 2] cfg.filepath h0,
              runRenames_cons_fail cfg 1 [2] _ h1] at hs
        | false =>
          cases h2 : cfg.renameFails 2 with
          | true =>
              simp [shred_file, hreg, hr1,
                runRenames_cons_ok cfg 0 [1, 2] cfg.filepath h0,
                runRenames_cons_ok cfg 1 [2] _ h1,
                runRenames_cons_fail cfg 2 [] _ h2] at hs
          | false =>
            have hrr : runRenames cfg [0, 1, 2] cfg.filepath =
                ([Event.rename cfg.filepath
                    ⟨cfg.filepath.dir, randomName cfg.hexStream 0⟩,
                  Event.rename ⟨cfg.filepath.dir, randomName cfg.hexStream 0⟩
                    ⟨cfg.filepath.dir, randomName cfg.hexStream 1⟩,
                  Event.rename ⟨cfg.filepath.dir, randomName cfg.hexStream 1⟩
                    ⟨cfg.filepath.dir, randomName cfg.hexStream 2⟩],
                 true, ⟨cfg.filepath.dir, randomName cfg.hexStream 2⟩) := by
              rw [runRenames_cons_ok cfg 0 [1, 2] cfg.filepath h0,
                runRenames_cons_ok cfg 1 [2] _ h1,
                runRenames_cons_ok cfg 2 [] _ h2, runRenames_nil]
            cases hrm : cfg.removeFails with
            | true => simp [shred_file, hreg, hr1, hrr, hrm] at hs
            | false =>
              cases hcb : cfg.hasCallback with
              | false =>
                  refine ⟨rfl, rfl, ?_⟩
                  simp [shred_file, hreg, hr1, hrr, hrm, hcb, List.append_assoc]
              | true =>
                cases hfs : cfg.finalSinkFails with
                | true => simp [shred_file, hreg, hr1, hrr, hrm, hcb, hfs] at hs
                | false =>
                    refine ⟨rfl, rfl, ?_⟩
                    simp [shred_file, hreg, hr1, hrr, hrm, hcb, hfs,
                      List.append_assoc]

theorem randomName_length (hexStream : Nat → Fin 16) (i : Nat) :
    (randomName hexStream i).length = 32 := by
  show ((List.range 32).map (fun j => hexChar (hexStream (32 * i + j)))).length = 32
  rw [List.length_map, List.length_range]

theorem randomName_chars (hexStream : Nat → Fin 16) (i : Nat) :
    ∀ c ∈ (randomName hexStream i).toList, c ∈ hexDigits := by
  intro c hc
  have hc' : c ∈ (List.range 32).map (fun j => hexChar (hexStream (32 * i + j))) := hc
  obtain ⟨j, -, rfl⟩ := List.mem_map.mp hc'
  exact List.get_mem hexDigits _ _

/-- C5 (amended: the freshly drawn names need not differ from the original
filename): every successful run performs exactly 3 sequential renames inside
the original parent directory — the pass trace before them contains no rename
and no removal — each target being a fresh 32-character string over
`0123456789abcdef`, and after the third rename the file at its final name is
removed (followed only by the final 100% progress update). -/
theorem rename_chain_three_fresh_hex_names (cfg : Config)
    (hC : 0 < cfg.chunk_size) (hs : (shred_file cfg).2 = true) :
    shred_file cfg =
      ((runPasses cfg (PATTERNS_get cfg.method)
          (List.range (PATTERNS_get cfg.method))).1 ++
        ([Event.rename cfg.filepath ⟨cfg.filepath.dir, randomName cfg.hexStream 0⟩,
          Event.rename ⟨cfg.filepath.dir, randomName cfg.hexStream 0⟩
            ⟨cfg.filepath.dir, randomName cfg.hexStream 1⟩,
          Event.rename ⟨cfg.filepath.dir, randomName cfg.hexStream 1⟩
            ⟨cfg.filepath.dir, randomName cfg.hexStream 2⟩,
          Event.remove ⟨cfg.filepath.dir, randomName cfg.hexStream 2⟩] ++
          (if cfg.hasCallback then [Event.progress 100 "Fertig!"] else [])),
       true) ∧
    (∀ e ∈ (runPasses cfg (PATTERNS_get cfg.method)
        (List.range (PATTERNS_get cfg.method))).1,
      e.isRename = false ∧ e.isRemove = false) ∧
    (∀ i, (randomName cfg.hexStream i).length = 32) ∧
    (∀ i, ∀ c ∈ (randomName cfg.hexStream i).toList, c ∈ hexDigits) := by
  obtain ⟨hreg, hr1, htrace⟩ := shred_file_success cfg hs
  refine ⟨htrace, ?_, randomName_length cfg.hexStream, randomName_chars cfg.hexStream⟩
  intro e he
  obtain ⟨p, -, hep⟩ := runPasses_events cfg (PATTERNS_get cfg.method)
    (List.range (PATTERNS_get cfg.method)) e he
  rcases passLoop_events cfg (PATTERNS_get cfg.method) p e hep with
    ⟨o, l, rfl⟩ | ⟨q, lab, rfl⟩ <;> exact ⟨rfl, rfl⟩

/-- C5 counterexample to the original claim: when the original filename is
itself the 32-character hex string the stream draws, the first rename targets
the file's own original name — the code never checks for distinctness. -/
theorem rename_to_original_name_cex :
    (shred_file cfgSelfName).2 = true ∧
    Event.rename cfgSelfName.filepath cfgSelfName.filepath ∈
      (shred_file cfgSelfName).1 := by
  have hideal := shred_file_ideal cfgSelfName rfl (fun p o => rfl) (fun p b => rfl)
    (fun i => rfl) rfl rfl
  have hcl : chunkList cfgSelfName.file_size cfgSelfName.chunk_size 0 = [] :=
    chunkList_stop _ _ _ (by decide)
  have hname : (⟨cfgSelfName.filepath.dir, randomName cfgSelfName.hexStream 0⟩ :
      FPath) = cfgSelfName.filepath := by decide
  rw [hideal]
  refine ⟨rfl, ?_⟩
  simp [idealPassTrace, hcl, hname]

/-- C5 witness: a fault-free run succeeds and draws 32-character names. -/
theorem rename_chain_three_fresh_hex_names_witness :
    0 < cfgOk.chunk_size ∧ (shred_file cfgOk).2 = true ∧
    (randomName cfgOk.hexStream 0).length = 32 := by
  have hs : (shred_file cfgOk).2 = true := by
    rw [shred_file_ideal cfgOk rfl (fun p o => rfl) (fun p b => rfl)
      (fun i => rfl) rfl rfl]
  have h := rename_chain_three_fresh_hex_names cfgOk (by decide) hs
  exact ⟨by decide, hs, h.2.2.1 0⟩

/-- C7 (amended: the label text is `"Durchgang i/passes"`, not
`"pass i/passes"`): in a fault-free pass with a callback supplied, each chunk
write is followed by exactly one progress invocation carrying exactly
`((pass_num * file_size + bytes_written) / (passes * file_size)) * 100` and
the label identifying the current pass. -/
theorem chunk_progress_exact (cfg : Config) (hcb : cfg.hasCallback = true)
    (hwf : ∀ p o, cfg.writeFails p o = false)
    (hsf : ∀ p b, cfg.sinkFails p b = false)
    (passes pass_num : Nat) :
    passLoop cfg passes pass_num 0 =
      ((chunkList cfg.file_size cfg.chunk_size 0).flatMap (fun oc =>
        [Event.write pass_num oc.1 oc.2,
         Event.progress (progressPct passes cfg.file_size pass_num (oc.1 + oc.2))
           (passLabel pass_num passes)]), true) := by
  rw [passLoop_ideal cfg passes pass_num hwf hsf]
  unfold idealPassTrace
  simp [hcb]

/-- C7 counterexample to the original claim: the label handed to the progress
sink is the German `"Durchgang 1/1"`, not a string of the form
`"pass 1/1"`. -/
theorem progress_label_is_german_cex :
    (shred_file cfgLabel).1.filterMap Event.labelOf = ["Durchgang 1/1", "Fertig!"] ∧
    ("Durchgang 1/1" : String) ≠ "pass 1/1" := by
  have hideal := shred_file_ideal cfgLabel rfl (fun p o => rfl) (fun p b => rfl)
    (fun i => rfl) rfl rfl
  have hcl : chunkList cfgLabel.file_size cfgLabel.chunk_size 0 = [(0, 1)] := by
    show chunkList 1 1 0 = [(0, 1)]
    rw [chunkList_step 1 1 0 (by norm_num) (by norm_num)]
    norm_num
    exact chunkList_stop 1 1 1 (by omega)
  refine ⟨?_, by decide⟩
  rw [hideal]
  have hN : PATTERNS_get cfgLabel.method = 1 := rfl
  simp [hN, idealPassTrace, hcl, List.filterMap_append, Event.labelOf]
  decide

/-- C7 witness: in a concrete fault-free pass, the single chunk write is
followed by one progress invocation with the exact percentage and label. -/
theorem chunk_progress_exact_witness :
    passLoop cfgLabel 1 0 0 =
      ([Event.write 0 0 1,
        Event.progress (progressPct 1 cfgLabel.file_size 0 1) (passLabel 0 1)],
       true) := by
  have h := chunk_progress_exact cfgLabel rfl (fun p o => rfl) (fun p b => rfl) 1 0
  have hcl : chunkList cfgLabel.file_size cfgLabel.chunk_size 0 = [(0, 1)] := by
    show chunkList 1 1 0 = [(0, 1)]
    rw [chunkList_step 1 1 0 (by norm_num) (by norm_num)]
    norm_num
    exact chunkList_stop 1 1 1 (by omega)
  rw [h, hcl]
  simp

/-- Behaviour of a fault-free `secure` run on a zero-byte file: the chunk
loop body never runs, so no per-pass progress update occurs; the rename chain
and removal proceed, the final 100% update fires, and the run succeeds. -/
theorem shred_file_zero_secure (cfg : Config) (hreg : cfg.isRegularFile = true)
    (hS : cfg.file_size = 0) (hm : cfg.method = "secure")
    (hrn : ∀ i, cfg.renameFails i = false) (hrm : cfg.removeFails = false)
    (hcb : cfg.hasCallback = true) (hfs : cfg.finalSinkFails = false) :
    (shred_file cfg).2 = true ∧
    (shred_file cfg).1 =
      [Event.rename cfg.filepath ⟨cfg.filepath.dir, randomName cfg.hexStream 0⟩,
       Event.rename ⟨cfg.filepath.dir, randomName cfg.hexStream 0⟩
         ⟨cfg.filepath.dir, randomName cfg.hexStream 1⟩,
       Event.rename ⟨cfg.filepath.dir, randomName cfg.hexStream 1⟩
         ⟨cfg.filepath.dir, randomName cfg.hexStream 2⟩,
       Event.remove ⟨cfg.filepath.dir, randomName cfg.hexStream 2⟩,
       Event.progress 100 "Fertig!"] ∧
    PATTERNS_get cfg.method = 3 ∧
    (shred_file cfg).1.filterMap Event.labelOf = ["Fertig!"] := by
  have hpl : ∀ p, passLoop cfg (PATTERNS_get cfg.method) p 0 = ([], true) :=
    fun p => passLoop_stop cfg (PATTERNS_get cfg.method) p 0 (by omega)
  have hrp : ∀ ps, runPasses cfg (PATTERNS_get cfg.method) ps = ([], true) := by
    intro ps
    induction ps with
    | nil => rfl
    | cons p ps ih =>
        rw [runPasses_cons_ok cfg (PATTERNS_get cfg.method) p ps (by rw [hpl p]),
          hpl p, ih]
        rfl
  have hshape : shred_file cfg =
      ([Event.rename cfg.filepath ⟨cfg.filepath.dir, randomName cfg.hexStream 0⟩,
        Event.rename ⟨cfg.filepath.dir, randomName cfg.hexStream 0⟩
          ⟨cfg.filepath.dir, randomName cfg.hexStream 1⟩,
        Event.rename ⟨cfg.filepath.dir, randomName cfg.hexStream 1⟩
          ⟨cfg.filepath.dir, randomName cfg.hexStream 2⟩,
        Event.remove ⟨cfg.filepath.dir, randomName cfg.hexStream 2⟩,
        Event.progress 100 "Fertig!"], true) := by
    simp [shred_file, hreg, hrp, runRenames_ideal cfg hrn, hrm, hcb, hfs]
  rw [hshape]
  refine ⟨rfl, rfl, by rw [hm]; rfl, ?_⟩
  simp [Event.labelOf]

/-- C8 (amended: the chunk loop body never runs on a zero-byte file, so there
is no per-pass progress update at all): a fault-free `secure` run on a
zero-byte file completes each of its 3 passes trivially, then the rename
chain and the removal proceed normally, the only progress invocation is the
final 100% one, and the result is success. -/
theorem zero_byte_secure_run (cfg : Config) (hreg : cfg.isRegularFile = true)
    (hS : cfg.file_size = 0) (hm : cfg.method = "secure")
    (hrn : ∀ i, cfg.renameFails i = false) (hrm : cfg.removeFails = false)
    (hcb : cfg.hasCallback = true) (hfs : cfg.finalSinkFails = false) :
    (shred_file cfg).2 = true ∧
    (shred_file cfg).1 =
      [Event.rename cfg.filepath ⟨cfg.filepath.dir, randomName cfg.hexStream 0⟩,
       Event.rename ⟨cfg.filepath.dir, randomName cfg.hexStream 0⟩
         ⟨cfg.filepath.dir, randomName cfg.hexStream 1⟩,
       Event.rename ⟨cfg.filepath.dir, randomName cfg.hexStream 1⟩
         ⟨cfg.filepath.dir, randomName cfg.hexStream 2⟩,
       Event.remove ⟨cfg.filepath.dir, randomName cfg.hexStream 2⟩,
       Event.progress 100 "Fertig!"] ∧
    PATTERNS_get cfg.method = 3 ∧
    (shred_file cfg).1.filterMap Event.labelOf = ["Fertig!"] :=
  shred_file_zero_secure cfg hreg hS hm hrn hrm hcb hfs

/-- C8 counterexample to the original claim: on the zero-byte `secure` run the
only label ever passed to the sink is the final `"Fertig!"` — none of the
three per-pass labels `"Durchgang i/3"` is ever reported, so there is no
per-pass progress update. -/
theorem zero_byte_no_per_pass_progress_cex :
    (shred_file cfgEmpty).2 = true ∧
    PATTERNS_get cfgEmpty.method = 3 ∧
    (shred_file cfgEmpty).1.filterMap Event.labelOf = ["Fertig!"] ∧
    ("Fertig!" : String) ≠ passLabel 0 3 ∧
    ("Fertig!" : String) ≠ passLabel 1 3 ∧
    ("Fertig!" : String) ≠ passLabel 2 3 := by
  have h := shred_file_zero_secure cfgEmpty rfl rfl rfl (fun i => rfl) rfl rfl rfl
  exact ⟨h.1, h.2.2.1, h.2.2.2, by decide, by decide, by decide⟩

/-- C8 witness: the amended behaviour on the concrete zero-byte `secure`
run. -/
theorem zero_byte_secure_run_witness :
    (shred_file cfgEmpty).2 = true ∧
    (shred_file cfgEmpty).1.filterMap Event.labelOf = ["Fertig!"] := by
  have h := zero_byte_secure_run cfgEmpty rfl rfl rfl (fun i => rfl) rfl rfl rfl
  exact ⟨h.1, h.2.2.2⟩

/-- C10: any exception raised inside the pipeline — including one raised by
the caller-supplied progress sink — is caught by the surrounding
`except Exception` and converted into the result `False` instead of
propagating; execution stops at the raising call (here: the very first
progress invocation), and `shred_file` still returns a Boolean.  Totality at
the boundary holds by construction of the embedding: `shred_file` is a total
function into `List Event × Bool`. -/
theorem sink_exception_converted_to_failure (cfg : Config)
    (hreg : cfg.isRegularFile = true) (hS : 0 < cfg.file_size)
    (hC : 0 < cfg.chunk_size) (hcb : cfg.hasCallback = true)
    (hwf : ∀ p o, cfg.writeFails p o = false)
    (hsf : ∀ p b, cfg.sinkFails p b = true) :
    (shred_file cfg).2 = false ∧
    (shred_file cfg).1 =
      [Event.write 0 0 (min cfg.chunk_size cfg.file_size),
       Event.progress
         (progressPct (PATTERNS_get cfg.method) cfg.file_size 0
           (min cfg.chunk_size cfg.file_size))
         (passLabel 0 (PATTERNS_get cfg.method))] := by
  have hfail0 : passLoop cfg (PATTERNS_get cfg.method) 0 0 =
      ([Event.write 0 0 (min cfg.chunk_size (cfg.file_size - 0)),
        Event.progress
          (progressPct (PATTERNS_get cfg.method) cfg.file_size 0
            (0 + min cfg.chunk_size (cfg.file_size - 0)))
          (passLabel 0 (PATTERNS_get cfg.method))], false) :=
    passLoop_sfail cfg (PATTERNS_get cfg.method) 0 0 hS hC (hwf 0 0) hcb
      (hsf 0 (0 + min cfg.chunk_size (cfg.file_size - 0)))
  obtain ⟨t, ht⟩ : ∃ t, PATTERNS_get cfg.method = t + 1 :=
    ⟨PATTERNS_get cfg.method - 1, by have := PATTERNS_get_pos cfg.method; omega⟩
  have hrange : List.range (PATTERNS_get cfg.method) =
      0 :: (List.range t).map Nat.succ := by
    rw [ht, List.range_succ_eq_map]
  have hrp : runPasses cfg (PATTERNS_get cfg.method)
      (List.range (PATTERNS_get cfg.method)) =
      ((passLoop cfg (PATTERNS_get cfg.method) 0 0).1, false) := by
    rw [hrange]
    exact runPasses_cons_fail cfg (PATTERNS_get cfg.method) 0 _ (by rw [hfail0])
  rw [shred_file_passfail cfg hreg (by rw [hrp]), hrp, hfail0]
  refine ⟨rfl, ?_⟩
  simp

/-- C10 witness: a concrete run whose sink raises at the first invocation
returns `false` (no exception escapes) and stops right after the first
chunk. -/
theorem sink_exception_converted_to_failure_witness :
    (shred_file cfgSinkRaises).2 = false ∧
    (shred_file cfgSinkRaises).1 =
      [Event.write 0 0 1, Event.progress (progressPct 1 1 0 1) (passLabel 0 1)] := by
  have h := sink_exception_converted_to_failure cfgSinkRaises rfl (by decide)
    (by decide) rfl (fun p o => rfl) (fun p b => rfl)
  exact ⟨h.1, h.2⟩

/-! Progress accounting.  Every reported percentage is `pval passes S k` for a
global byte index `k = pass_num * S + bytes_written`, and the indices reported
during a run are strictly increasing. -/

theorem progressVals_nil : progressVals [] = [] := rfl

theorem progressVals_cons_write (p o len : Nat) (tr : List Event) :
    progressVals (Event.write p o len :: tr) = progressVals tr := rfl

theorem progressVals_cons_progress (q : ℚ) (lab : String) (tr : List Event) :
    progressVals (Event.progress q lab :: tr) = q :: progressVals tr := rfl

theorem progressVals_cons_rename (s d : FPath) (tr : List Event) :
    progressVals (Event.rename s d :: tr) = progressVals tr := rfl

theorem progressVals_cons_remove (p : FPath) (tr : List Event) :
    progressVals (Event.remove p :: tr) = progressVals tr := rfl

theorem progressVals_append (l1 l2 : List Event) :
    progressVals (l1 ++ l2) = progressVals l1 ++ progressVals l2 := by
  simp [progressVals]

theorem progressPct_eq_pval (passes file_size pass_num bytes_written : Nat) :
    progressPct passes file_size pass_num bytes_written =
      pval passes file_size (pass_num * file_size + bytes_written) := rfl

theorem pval_nonneg (passes file_size k : Nat) : 0 ≤ pval passes file_size k := by
  unfold pval
  positivity

theorem pval_mono (passes file_size : Nat) {k1 k2 : Nat} (h : k1 ≤ k2) :
    pval passes file_size k1 ≤ pval passes file_size k2 := by
  unfold pval
  rcases Nat.eq_zero_or_pos (passes * file_size) with h0 | h0
  · simp [h0]
  · have hD : (0 : ℚ) < ((passes * file_size : Nat) : ℚ) := by exact_mod_cast h0
    have hk : ((k1 : Nat) : ℚ) ≤ ((k2 : Nat) : ℚ) := by exact_mod_cast h
    exact mul_le_mul_of_nonneg_right ((div_le_div_iff_of_pos_right hD).mpr hk) (by norm_num)

theorem pval_le_100 (passes file_size k : Nat) (h : k ≤ passes * file_size) :
    pval passes file_size k ≤ 100 := by
  unfold pval
  rcases Nat.eq_zero_or_pos (passes * file_size) with h0 | h0
  · simp [h0]
  · have hD : (0 : ℚ) < ((passes * file_size : Nat) : ℚ) := by exact_mod_cast h0
    have hk : ((k : Nat) : ℚ) ≤ ((passes * file_size : Nat) : ℚ) := by exact_mod_cast h
    have h1 : ((k : Nat) : ℚ) / ((passes * file_size : Nat) : ℚ) ≤ 1 :=
      (div_le_one hD).mpr hk
    calc ((k : Nat) : ℚ) / ((passes * file_size : Nat) : ℚ) * 100 ≤ 1 * 100 :=
        mul_le_mul_of_nonneg_right h1 (by norm_num)
      _ = 100 := by norm_num

/-- The percentages reported inside one (possibly aborting) pass are
`pval (pass_num * S + k)` for a strictly increasing list of byte counts `k`,
each strictly beyond the starting offset and at most `S`. -/
theorem passLoop_vals_aux (cfg : Config) (passes pass_num : Nat) :
    ∀ (m bytes_written : Nat), cfg.file_size - bytes_written ≤ m →
      ∃ l : List Nat,
        progressVals (passLoop cfg passes pass_num bytes_written).1 =
          l.map (fun k => pval passes cfg.file_size (pass_num * cfg.file_size + k)) ∧
        List.Chain' (· < ·) l ∧
        ∀ k ∈ l, bytes_written < k ∧ k ≤ cfg.file_size := by
  intro m
  induction m with
  | zero =>
      intro b hm
      refine ⟨[], ?_, List.chain'_nil, by simp⟩
      rw [passLoop_stop cfg passes pass_num b (by omega)]
      rfl
  | succ m ih =>
      intro b hm
      by_cases hcond : b < cfg.file_size ∧ 0 < cfg.chunk_size
      · obtain ⟨hlt, hC⟩ := hcond
        have hminpos : 0 < min cfg.chunk_size (cfg.file_size - b) := by omega
        have hminle : b + min cfg.chunk_size (cfg.file_size - b) ≤ cfg.file_size := by
          omega
        cases hw : cfg.writeFails pass_num b with
        | true =>
            refine ⟨[], ?_, List.chain'_nil, by simp⟩
            rw [passLoop_wfail cfg passes pass_num b hlt hC hw]
            rfl
        | false =>
            cases hcb : cfg.hasCallback with
            | false =>
                obtain ⟨l, hl, hch, hbd⟩ :=
                  ih (b + min cfg.chunk_size (cfg.file_size - b)) (by omega)
                refine ⟨l, ?_, hch, ?_⟩
                · rw [passLoop_nocb cfg passes pass_num b hlt hC hw hcb,
                    progressVals_cons_write]
                  exact hl
                · intro k hk
                  have := hbd k hk
                  exact ⟨by omega, this.2⟩
            | true =>
                cases hs : cfg.sinkFails pass_num
                    (b + min cfg.chunk_size (cfg.file_size - b)) with
                | true =>
                    refine ⟨[b + min cfg.chunk_size (cfg.file_size - b)], ?_, ?_, ?_⟩
                    · rw [passLoop_sfail cfg passes pass_num b hlt hC hw hcb hs,
                        progressVals_cons_write, progressVals_cons_progress,
                        progressVals_nil, List.map_cons, List.map_nil]
                      rfl
                    · simp
                    · intro k hk
                      simp at hk
                      omega
                | false =>
                    obtain ⟨l, hl, hch, hbd⟩ :=
                      ih (b + min cfg.chunk_size (cfg.file_size - b)) (by omega)
                    refine ⟨(b + min cfg.chunk_size (cfg.file_size - b)) :: l, ?_, ?_, ?_⟩
                    · rw [passLoop_cb cfg passes pass_num b hlt hC hw hcb hs,
                        progressVals_cons_write, progressVals_cons_progress, hl,
                        List.map_cons]
                      rfl
                    · refine List.chain'_cons'.mpr ⟨?_, hch⟩
                      intro y hy
                      exact (hbd y (List.mem_of_mem_head? hy)).1
                    · intro k hk
                      rcases List.mem_cons.mp hk with rfl | hk
                      · exact ⟨by omega, hminle⟩
                      · have := hbd k hk
                        exact ⟨by omega, this.2⟩
      · refine ⟨[], ?_, List.chain'_nil, by simp⟩
        rw [passLoop_stop cfg passes pass_num b hcond]
        rfl

/-- The percentages reported across a strictly increasing list of passes all
live below 100% and correspond to strictly increasing global byte indices. -/
theorem runPasses_vals (cfg : Config) (passes : Nat) :
    ∀ ps : List Nat, List.Chain' (· < ·) ps → (∀ p ∈ ps, p < passes) →
      ∃ l : List Nat,
        progressVals (runPasses cfg passes ps).1 =
          l.map (pval passes cfg.file_size) ∧
        List.Chain' (· < ·) l ∧
        (∀ k ∈ l, k ≤ passes * cfg.file_size) ∧
        (∀ p0 ∈ ps.head?, ∀ k ∈ l, p0 * cfg.file_size < k) := by
  intro ps
  induction ps with
  | nil =>
      intro _ _
      exact ⟨[], rfl, List.chain'_nil, by simp, by simp⟩
  | cons p ps ih =>
      intro hch hlt
      obtain ⟨l1, hl1, hc1, hb1⟩ :=
        passLoop_vals_aux cfg passes p cfg.file_size 0 (by omega)
      have hp : p < passes := hlt p (List.mem_cons_self p ps)
      have hl1' : progressVals (passLoop cfg passes p 0).1 =
          (l1.map (fun k => p * cfg.file_size + k)).map (pval passes cfg.file_size) := by
        rw [List.map_map]
        exact hl1
      have hc1' : List.Chain' (· < ·) (l1.map (fun k => p * cfg.file_size + k)) :=
        (List.chain'_map _).mpr (hc1.imp (fun a b hab => by omega))
      have hmulS : (p + 1) * cfg.file_size = p * cfg.file_size + cfg.file_size := by
        ring
      have hub1 : ∀ k ∈ l1.map (fun k => p * cfg.file_size + k),
          k ≤ passes * cfg.file_size := by
        intro k hk
        obtain ⟨k0, hk0, rfl⟩ := List.mem_map.mp hk
        have h1 := (hb1 k0 hk0).2
        have h2 : (p + 1) * cfg.file_size ≤ passes * cfg.file_size :=
          Nat.mul_le_mul_right cfg.file_size hp
        omega
      have hlb1 : ∀ k ∈ l1.map (fun k => p * cfg.file_size + k),
          p * cfg.file_size < k := by
        intro k hk
        obtain ⟨k0, hk0, rfl⟩ := List.mem_map.mp hk
        have := (hb1 k0 hk0).1
        omega
      cases hp2 : (passLoop cfg passes p 0).2 with
      | false =>
          refine ⟨l1.map (fun k => p * cfg.file_size + k), ?_, hc1', hub1, ?_⟩
          · rw [runPasses_cons_fail cfg passes p ps hp2]
            exact hl1'
          · intro p0 hp0 k hk
            simp at hp0
            subst hp0
            exact hlb1 k hk
      | true =>
          obtain ⟨l2, hl2, hc2, hub2, hhd2⟩ :=
            ih hch.tail (fun q hq => hlt q (List.mem_cons_of_mem p hq))
          have hl2nil : ps = [] → l2 = [] := by
            intro hnil
            subst hnil
            have h0 : l2.map (pval passes cfg.file_size) = [] := by
              rw [← hl2]
              rfl
            exact List.map_eq_nil_iff.mp h0
          refine ⟨l1.map (fun k => p * cfg.file_size + k) ++ l2, ?_, ?_, ?_, ?_⟩
          · rw [runPasses_cons_ok cfg passes p ps hp2, progressVals_append,
              hl1', hl2, List.map_append]
          · refine List.chain'_append.mpr ⟨hc1', hc2, ?_⟩
            intro x hx y hy
            have hx' : x ∈ l1.map (fun k => p * cfg.file_size + k) :=
              List.mem_of_mem_getLast? hx
            have hy' : y ∈ l2 := List.mem_of_mem_head? hy
            cases ps with
            | nil =>
                rw [hl2nil rfl] at hy'
                simp at hy'
            | cons q ps' =>
                have hpq : p < q := (List.chain'_cons.mp hch).1
                have hq : q * cfg.file_size < y := hhd2 q (by simp) y hy'
                obtain ⟨x0, hx0, rfl⟩ := List.mem_map.mp hx'
                have h1 := (hb1 x0 hx0).2
                have h2 : (p + 1) * cfg.file_size ≤ q * cfg.file_size :=
                  Nat.mul_le_mul_right cfg.file_size (by omega)
                omega
          · intro k hk
            rcases List.mem_append.mp hk with h | h
            · exact hub1 k h
            · exact hub2 k h
          · intro p0 hp0 k hk
            simp at hp0
            subst hp0
            rcases List.mem_append.mp hk with h | h
            · exact hlb1 k h
            · cases ps with
              | nil =>
                  rw [hl2nil rfl] at h
                  simp at h
              | cons q ps' =>
                  have hpq : p < q := (List.chain'_cons.mp hch).1
                  have hq : q * cfg.file_size < k := hhd2 q (by simp) k h
                  have h2 : p * cfg.file_size ≤ q * cfg.file_size :=
                    Nat.mul_le_mul_right cfg.file_size (by omega)
                  omega

/-- The percentages a whole run reports are the in-pass ones, followed by the
final literal 100 exactly when the run succeeds with a callback supplied. -/
theorem shred_file_progressVals (cfg : Config) (hreg : cfg.isRegularFile = true) :
    progressVals (shred_file cfg).1 =
      progressVals (runPasses cfg (PATTERNS_get cfg.method)
        (List.range (PATTERNS_get cfg.method))).1 ++
      (if (shred_file cfg).2 = true ∧ cfg.hasCallback = true
        then [(100 : ℚ)] else []) := by
  have hrnil : progressVals (runRenames cfg [0, 1, 2] cfg.filepath).1 = [] := by
    unfold progressVals
    refine List.filterMap_eq_nil_iff.mpr ?_
    intro e he
    obtain ⟨s, d, rfl⟩ := runRenames_events cfg [0, 1, 2] cfg.filepath e he
    rfl
  by_cases hr1 : (runPasses cfg (PATTERNS_get cfg.method)
      (List.range (PATTERNS_get cfg.method))).2 = false
  · rw [shred_file_passfail cfg hreg hr1]
    simp
  · by_cases hr2 : (runRenames cfg [0, 1, 2] cfg.filepath).2.1 = false
    · have heq : shred_file cfg =
          ((runPasses cfg (PATTERNS_get cfg.method)
              (List.range (PATTERNS_get cfg.method))).1 ++
            (runRenames cfg [0, 1, 2] cfg.filepath).1, false) := by
        simp [shred_file, hreg, hr1, hr2]
      rw [heq]
      simp [progressVals_append, hrnil]
    · cases hrm : cfg.removeFails with
      | true =>
          have heq : shred_file cfg =
              ((runPasses cfg (PATTERNS_get cfg.method)
                  (List.range (PATTERNS_get cfg.method))).1 ++
                (runRenames cfg [0, 1, 2] cfg.filepath).1, false) := by
            simp [shred_file, hreg, hr1, hr2, hrm]
          rw [heq]
          simp [progressVals_append, hrnil]
      | false =>
          cases hcb : cfg.hasCallback with
          | false =>
              have heq : shred_file cfg =
                  ((runPasses cfg (PATTERNS_get cfg.method)
                      (List.range (PATTERNS_get cfg.method))).1 ++
                    (runRenames cfg [0, 1, 2] cfg.filepath).1 ++
                    [Event.remove (runRenames cfg [0, 1, 2] cfg.filepath).2.2],
                   true) := by
                simp [shred_file, hreg, hr1, hr2, hrm, hcb]
              rw [heq]
              simp [progressVals_append, hrnil, progressVals_cons_remove,
                progressVals_nil, hcb]
          | true =>
              cases hfs : cfg.finalSinkFails with
              | true =>
                  have heq : shred_file cfg =
                      ((runPasses cfg (PATTERNS_get cfg.method)
                          (List.range (PATTERNS_get cfg.method))).1 ++
                        (runRenames cfg [0, 1, 2] cfg.filepath).1 ++
                        [Event.remove (runRenames cfg [0, 1, 2] cfg.filepath).2.2],
                       false) := by
                    simp [shred_file, hreg, hr1, hr2, hrm, hcb, hfs]
                  rw [heq]
                  simp [progressVals_append, hrnil, progressVals_cons_remove,
                    progressVals_nil]
              | false =>
                  have heq : shred_file cfg =
                      ((runPasses cfg (PATTERNS_get cfg.method)
                          (List.range (PATTERNS_get cfg.method))).1 ++
                        (runRenames cfg [0, 1, 2] cfg.filepath).1 ++
                        [Event.remove (runRenames cfg [0, 1, 2] cfg.filepath).2.2] ++
                        [Event.progress 100 "Fertig!"],
                       true) := by
                    simp [shred_file, hreg, hr1, hr2, hrm, hcb, hfs,
                      List.append_assoc]
                  rw [heq]
                  simp [progressVals_append, hrnil, progressVals_cons_remove,
                    progressVals_cons_progress, progressVals_nil, hcb]

/-- C6 (amended: the final reported value is exactly 100 on successful runs
with a progress sink supplied; a failing run stops early, below 100): the
percentages passed to the progress sink during one run are monotonically
non-decreasing and all lie within [0, 100]. -/
theorem progress_monotone_bounded (cfg : Config) :
    List.Chain' (· ≤ ·) (progressVals (shred_file cfg).1) ∧
    (∀ v ∈ progressVals (shred_file cfg).1, 0 ≤ v ∧ v ≤ 100) ∧
    ((shred_file cfg).2 = true → cfg.hasCallback = true →
      (progressVals (shred_file cfg).1).getLast? = some 100) := by
  cases hreg : cfg.isRegularFile with
  | false =>
      rw [shred_file_notfile cfg hreg]
      exact ⟨List.chain'_nil, by simp [progressVals_nil], by simp⟩
  | true =>
      obtain ⟨l, hl, hch, hub, -⟩ := runPasses_vals cfg (PATTERNS_get cfg.method)
        (List.range (PATTERNS_get cfg.method))
        (List.pairwise_lt_range _).chain' (fun p hp => List.mem_range.mp hp)
      have hmain := shred_file_progressVals cfg hreg
      have hboundmain : ∀ v ∈ progressVals (runPasses cfg (PATTERNS_get cfg.method)
          (List.range (PATTERNS_get cfg.method))).1, 0 ≤ v ∧ v ≤ 100 := by
        intro v hv
        rw [hl] at hv
        obtain ⟨k, hk, rfl⟩ := List.mem_map.mp hv
        exact ⟨pval_nonneg _ _ _, pval_le_100 _ _ _ (hub k hk)⟩
      have hchmain : List.Chain' (· ≤ ·)
          (progressVals (runPasses cfg (PATTERNS_get cfg.method)
            (List.range (PATTERNS_get cfg.method))).1) := by
        rw [hl]
        exact (List.chain'_map _).mpr
          (hch.imp (fun a b hab => pval_mono _ _ (le_of_lt hab)))
      refine ⟨?_, ?_, ?_⟩
      · rw [hmain]
        by_cases hc : (shred_file cfg).2 = true ∧ cfg.hasCallback = true
        · rw [if_pos hc]
          refine List.chain'_append.mpr ⟨hchmain, List.chain'_singleton _, ?_⟩
          intro x hx y hy
          have hx' := List.mem_of_mem_getLast? hx
          simp at hy
          subst hy
          exact (hboundmain x hx').2
        · rw [if_neg hc]
          simpa using hchmain
      · rw [hmain]
        intro v hv
        rcases List.mem_append.mp hv with h | h
        · exact hboundmain v h
        · split at h
          · simp at h
            subst h
            norm_num
          · simp at h
      · intro hs hcb
        rw [hmain, if_pos ⟨hs, hcb⟩]
        exact List.getLast?_concat _

/-- C6 counterexample to the original claim: on a `secure` run whose write
raises in pass 1, the last percentage ever reported is 100/3, not 100. -/
theorem progress_last_not_100_on_failure_cex :
    (shred_file cfgSecureFail).2 = false ∧
    (progressVals (shred_file cfgSecureFail).1).getLast? = some (100 / 3) ∧
    ((100 / 3 : ℚ) ≠ 100) := by
  have hpl1 : passLoop cfgSecureFail 3 1 0 = ([], false) :=
    passLoop_wfail cfgSecureFail 3 1 0 (by decide) (by decide) (by decide)
  have hpl0 : passLoop cfgSecureFail 3 0 0 =
      ([Event.write 0 0 1, Event.progress (progressPct 3 1 0 1) (passLabel 0 3)],
       true) := by
    rw [passLoop_cb cfgSecureFail 3 0 0 (by decide) (by decide) (by decide) rfl
        (by decide),
      passLoop_stop cfgSecureFail 3 0
        (0 + min cfgSecureFail.chunk_size (cfgSecureFail.file_size - 0)) (by decide)]
    rfl
  have hrange : List.range 3 = [0] ++ 1 :: [2] := by decide
  have hrp : runPasses cfgSecureFail 3 (List.range 3) =
      ([0].flatMap (fun p => (passLoop cfgSecureFail 3 p 0).1) ++
        (passLoop cfgSecureFail 3 1 0).1, false) := by
    rw [hrange]
    refine runPasses_first_fail cfgSecureFail 3 1 (by rw [hpl1]) [0] [2] ?_
    intro p hp
    have hp0 : p = 0 := by simpa using hp
    subst hp0
    rw [hpl0]
  have heq := shred_file_passfail cfgSecureFail rfl
    (by rw [show PATTERNS_get cfgSecureFail.method = 3 from rfl, hrp])
  refine ⟨by rw [heq], ?_, by norm_num⟩
  rw [heq, show PATTERNS_get cfgSecureFail.method = 3 from rfl, hrp]
  have hpct : progressPct 3 1 0 1 = 100 / 3 := by
    norm_num [progressPct]
  simp [hpl0, hpl1, progressVals_append, progressVals_cons_write,
    progressVals_cons_progress, progressVals_nil, hpct]

/-- C6 witness: on a concrete fault-free run the reported percentages are
non-decreasing and the last one is exactly 100. -/
theorem progress_monotone_bounded_witness :
    List.Chain' (· ≤ ·) (progressVals (shred_file cfgOk).1) ∧
    (progressVals (shred_file cfgOk).1).getLast? = some 100 := by
  have h := progress_monotone_bounded cfgOk
  have hs : (shred_file cfgOk).2 = true := by
    rw [shred_file_ideal cfgOk rfl (fun p o => rfl) (fun p b => rfl)
      (fun i => rfl) rfl rfl]
  exact ⟨h.1, h.2.2 hs rfl⟩

end Shredder
